import Mathlib

/-!
Verification of `scripts_remove_flavors_by_artists.py` from the
clip-interrogator-average repository.

Python strings are embedded as lists of Unicode code points (`List Nat`).
The two Unicode-table-driven steps of `normalize_text` (NFKD decomposition
and combining-mark category lookup) are parameters of the embedding
(structure `Uni`); every property that depends on them is proved from
documented facts about their behaviour on the ASCII range (structure
`UniAsciiFacts`), and concrete scenarios use the instantiation `uniAscii`,
which is exact for the all-ASCII inputs they involve.
-/

namespace RemoveFlavors

/-- A Python string, as its sequence of Unicode code points. -/
abbrev PyStr := List Nat

/-- Code points of a Lean string literal (all test inputs are ASCII). -/
def str (s : String) : PyStr := s.data.map Char.toNat

/-- Python whitespace (`str.isspace`, and the `\s` class of the `re` module
for `str` patterns): ASCII whitespace, the C1 separators, NEL, NBSP and the
Unicode space/line/paragraph separators. -/
def isPySpace (n : Nat) : Bool :=
  n = 32 || n = 9 || n = 10 || n = 13 || n = 11 || n = 12 ||
  n = 28 || n = 29 || n = 30 || n = 31 || n = 133 || n = 160 ||
  n = 5760 || (8192 ≤ n && n ≤ 8202) || n = 8232 || n = 8233 ||
  n = 8239 || n = 8287 || n = 12288

/-- Line boundaries recognised by Python `str.splitlines`. -/
def isLineBreak (n : Nat) : Bool :=
  n = 10 || n = 13 || n = 11 || n = 12 || n = 28 || n = 29 || n = 30 ||
  n = 133 || n = 8232 || n = 8233

def isAsciiDigit (n : Nat) : Bool := 48 ≤ n && n ≤ 57

def isAsciiUpper (n : Nat) : Bool := 65 ≤ n && n ≤ 90

def isAsciiLower (n : Nat) : Bool := 97 ≤ n && n ≤ 122

def isAsciiAlnum (n : Nat) : Bool := isAsciiDigit n || isAsciiUpper n || isAsciiLower n

/-- Characters matched by `RE_NON_ALNUM = re.compile(r'[^0-9a-zA-Z\s]+')`. -/
def isRegexStripped (n : Nat) : Bool := !isAsciiAlnum n && !isPySpace n

/-- `re.sub` of a one-character-class `+` pattern with replacement `' '`:
each maximal run of characters satisfying `p` becomes a single space.
The flag records whether the previous character was part of such a run. -/
def subRunsGo (p : Nat → Bool) : Bool → PyStr → PyStr
  | _, [] => []
  | prev, c :: rest =>
    if p c then (if prev then [] else [32]) ++ subRunsGo p true rest
    else c :: subRunsGo p false rest

/-- `RE_NON_ALNUM.sub(' ', s)`. -/
def subNonAlnum (l : PyStr) : PyStr := subRunsGo isRegexStripped false l

/-- `re.sub(r'\s+', ' ', s)`. -/
def collapseWs (l : PyStr) : PyStr := subRunsGo isPySpace false l

/-- Remove trailing characters satisfying `p` (right half of a strip). -/
def dropTrailing (p : Nat → Bool) : PyStr → PyStr
  | [] => []
  | c :: rest =>
    match dropTrailing p rest with
    | [] => if p c then [] else [c]
    | r => c :: r

/-- Python `str.strip()`: remove leading and trailing whitespace. -/
def pyStrip (l : PyStr) : PyStr := dropTrailing isPySpace (l.dropWhile isPySpace)

/-- Python `line.rstrip('\n')`: remove trailing newline characters only. -/
def rstripNl (l : PyStr) : PyStr := dropTrailing (fun n => decide (n = 10)) l

/-- Python `str.casefold`, restricted to the characters that can actually
reach it inside `normalize_text`: after `RE_NON_ALNUM.sub` and whitespace
collapsing only ASCII alphanumerics and the space remain (see lemma
`precasefold_ascii`), and on those `casefold` lowercases `A`-`Z` and fixes
everything else. -/
def asciiFold (n : Nat) : Nat := if isAsciiUpper n then n + 32 else n

/-- The two Unicode-table-driven primitives used by `normalize_text`:
`unicodedata.normalize("NFKD", ·)` modelled as a per-code-point
decomposition (canonical reordering only permutes combining marks, which
the very next step deletes), and the test
`unicodedata.category(ch).startswith('M')`. -/
structure Uni where
  nfkd : Nat → PyStr
  isMark : Nat → Bool

/-- `normalize_text` from the script: NFKD-decompose, delete combining
marks, replace runs of non-alphanumeric non-space characters by a space,
collapse whitespace runs to a single space, strip, casefold. -/
def normalizeWith (U : Uni) (s : PyStr) : PyStr :=
  (pyStrip (collapseWs (subNonAlnum
    (((s.map U.nfkd).flatten).filter (fun c => !U.isMark c))))).map asciiFold

/-- Instantiation of `Uni` that is exact on ASCII: ASCII code points are
NFKD-fixed and are not combining marks; all concrete inputs in this file
are ASCII. -/
def uniAscii : Uni := { nfkd := fun n => [n], isMark := fun _ => false }

/-- A code point that can occur in the output of `normalize_text`:
lowercase ASCII letter, ASCII digit, or space. -/
def goodOut (n : Nat) : Bool := isAsciiLower n || isAsciiDigit n || n = 32

/-- Documented Unicode facts used by the idempotency proof: code points of
the normalizer's output alphabet (lowercase ASCII alphanumerics and the
space) have trivial NFKD decompositions and are not combining marks. -/
structure UniAsciiFacts (U : Uni) : Prop where
  nfkd_fix : ∀ c, goodOut c = true → U.nfkd c = [c]
  mark_free : ∀ c, goodOut c = true → U.isMark c = false

/-- Python `needle in hay` helper: does `hay` start with `needle`? -/
def startsWith : PyStr → PyStr → Bool
  | [], _ => true
  | _ :: _, [] => false
  | a :: as, b :: bs => decide (a = b) && startsWith as bs

/-- Python substring containment `needle in hay`. -/
def substrIn (needle : PyStr) : PyStr → Bool
  | [] => startsWith needle []
  | c :: rest => startsWith needle (c :: rest) || substrIn needle rest

/-- Python `str.splitlines`, with `cur` the (reversed) current line;
a `\r\n` pair counts as a single boundary. -/
def splitlinesGo : PyStr → PyStr → List PyStr
  | cur, [] => if cur = [] then [] else [cur.reverse]
  | cur, [c] =>
    if isLineBreak c then [cur.reverse] else [(c :: cur).reverse]
  | cur, c :: c2 :: rest =>
    if c = 13 then
      if c2 = 10 then cur.reverse :: splitlinesGo [] rest
      else cur.reverse :: splitlinesGo [] (c2 :: rest)
    else if isLineBreak c then
      cur.reverse :: splitlinesGo [] (c2 :: rest)
    else
      splitlinesGo (c :: cur) (c2 :: rest)

/-- Python `text.splitlines()`. -/
def pySplitlines (text : PyStr) : List PyStr := splitlinesGo [] text

/-- `load_nonempty_lines`: split the file text into lines and strip the
trailing newline of each (a no-op after `splitlines`, kept for fidelity). -/
def load_nonempty_lines (text : PyStr) : List PyStr :=
  (pySplitlines text).map rstripNl

/-- The loop body of `find_removals` that builds `normalized_artists`:
strip each artist line, skip blanks, normalize, skip entries that
normalize to the empty string. -/
def buildNormalizedArtists (U : Uni) (artistsLines : List PyStr) : List PyStr :=
  artistsLines.filterMap (fun a =>
    let astr := pyStrip a
    if astr = [] then none
    else
      let na := normalizeWith U astr
      if na = [] then none else some na)

/-- The per-flavor-line test of `find_removals`: blank lines are skipped;
otherwise the line is flagged when some normalized artist `na` is a
nonempty substring of the normalized line `nf`, `na` without spaces has
more than 3 characters, and `"and"` occurs in `nf`. -/
def lineMatches (U : Uni) (normalizedArtists : List PyStr) (flavor : PyStr) : Bool :=
  let fstr := pyStrip flavor
  if fstr = [] then false
  else
    let nf := normalizeWith U fstr
    normalizedArtists.any (fun na =>
      !na.isEmpty && substrIn na nf &&
      decide (3 < (na.filter (fun c => !decide (c = 32))).length) &&
      substrIn (str "and") nf)

/-- `find_removals`: indices of flagged flavors lines (ascending) together
with their original contents. -/
def find_removals (U : Uni) (flavorsLines artistsLines : List PyStr) :
    List Nat × List PyStr :=
  let nas := buildNormalizedArtists U artistsLines
  let flagged := flavorsLines.enum.filter (fun p => lineMatches U nas p.2)
  (flagged.map Prod.fst, flagged.map Prod.snd)

/-- The kept-lines comprehension of `write_filtered`:
`[line for idx, line in enumerate(flavors_lines) if idx not in set(removals_idx)]`. -/
def keptLines (lines : List PyStr) (removalsIdx : List Nat) : List PyStr :=
  (lines.enum.filter (fun p => !decide (p.1 ∈ removalsIdx))).map Prod.snd

/-- `"\n".join(lines)`. -/
def joinNl : List PyStr → PyStr
  | [] => []
  | [x] => x
  | x :: rest => x ++ 10 :: joinNl rest

/-- The serialization both `write_text` calls of `write_filtered` use:
`"\n".join(lines) + ("\n" if lines and not lines[-1].endswith("\n") else "")`. -/
def serializeLines (lines : List PyStr) : PyStr :=
  joinNl lines ++
    (match lines.getLast? with
     | none => []
     | some lastLine =>
       match lastLine.getLast? with
       | none => [10]
       | some c => if c = 10 then [] else [10])

/-- The file writes `write_filtered` performs, in program order. -/
inductive FileWrite where
  | toBackup (content : PyStr)
  | toPrimary (content : PyStr)
deriving DecidableEq

/-- The ordered write sequence of `write_filtered`: the backup (when
requested) strictly precedes the overwrite of the flavors file. -/
def write_filtered_writes (flavorsLines : List PyStr) (removalsIdx : List Nat)
    (createBackup : Bool) : List FileWrite :=
  (if createBackup then [FileWrite.toBackup (serializeLines flavorsLines)] else [])
  ++ [FileWrite.toPrimary (serializeLines (keptLines flavorsLines removalsIdx))]

/-- Filesystem state seen by the program: the two input files (`none` =
missing) and the backup file (`none` = not created). -/
structure SysState where
  artistsFile : Option PyStr
  flavorsFile : Option PyStr
  backupFile : Option PyStr
deriving DecidableEq

/-- Execute a write sequence; `backupOk = false` makes the backup write
fail (e.g. permissions), which raises and aborts the remaining writes,
as `Path.write_text` does in the script.  Returns the state after the
writes that executed, and whether all writes succeeded. -/
def runWritesF (backupOk : Bool) : SysState → List FileWrite → SysState × Bool
  | st, [] => (st, true)
  | st, FileWrite.toBackup c :: rest =>
    if backupOk then runWritesF backupOk { st with backupFile := some c } rest
    else (st, false)
  | st, FileWrite.toPrimary c :: rest =>
    runWritesF backupOk { st with flavorsFile := some c } rest

/-- Failure-free execution of a write sequence. -/
def runWrites (st : SysState) (ws : List FileWrite) : SysState :=
  (runWritesF true st ws).1

/-- `main`: check both inputs exist, load them, run `find_removals`;
in dry-run mode stop without touching any file, otherwise perform the
writes of `write_filtered` (backup unless `--no-backup`). -/
def mainRun (U : Uni) (inplace noBackup : Bool) (st : SysState) :
    Except PyStr SysState :=
  match st.artistsFile with
  | none => Except.error (str "Artists file not found")
  | some atext =>
    match st.flavorsFile with
    | none => Except.error (str "Flavors file not found")
    | some ftext =>
      let artistsLines := load_nonempty_lines atext
      let flavorsLines := load_nonempty_lines ftext
      let removalsIdx := (find_removals U flavorsLines artistsLines).1
      if inplace then
        Except.ok (runWrites st (write_filtered_writes flavorsLines removalsIdx (!noBackup)))
      else
        Except.ok st

/-- Backup file of a run's outcome (`none` when the run failed). -/
def getBackup : Except PyStr SysState → Option PyStr
  | Except.ok st => st.backupFile
  | Except.error _ => none

/-- Append a final newline unless the text is empty or already ends in one
(the byte-level effect of serializing loaded lines of a `\n`-only text). -/
def ensureTrailNl (text : PyStr) : PyStr :=
  match text.getLast? with
  | none => []
  | some c => if c = 10 then text else text ++ [10]

/-- No character of the string is a line boundary. -/
def noBreakChars (l : PyStr) : Prop := ∀ c ∈ l, isLineBreak c = false

/-- No line of the list contains a line boundary character. -/
def noBreakLines (L : List PyStr) : Prop := ∀ l ∈ L, noBreakChars l

/-- Every line boundary occurring in the text is a plain `\n`. -/
def onlyNlBreaks (text : PyStr) : Prop := ∀ c ∈ text, isLineBreak c = true → c = 10

instance decNoBreakChars (l : PyStr) : Decidable (noBreakChars l) :=
  inferInstanceAs (Decidable (∀ c ∈ l, isLineBreak c = false))

instance decNoBreakLines (L : List PyStr) : Decidable (noBreakLines L) :=
  inferInstanceAs (Decidable (∀ l ∈ L, noBreakChars l))

instance decOnlyNlBreaks (t : PyStr) : Decidable (onlyNlBreaks t) :=
  inferInstanceAs (Decidable (∀ c ∈ t, isLineBreak c = true → c = 10))

/-- No two adjacent spaces. -/
def noDblSp : PyStr → Bool
  | [] => true
  | [_] => true
  | a :: b :: rest => !(decide (a = 32) && decide (b = 32)) && noDblSp (b :: rest)

/-- Canonical form of `normalize_text` outputs: every code point is a
lowercase ASCII alphanumeric or a space, spaces are single, and the string
neither starts nor ends with a space. -/
structure Canon (t : PyStr) : Prop where
  chars : ∀ c ∈ t, goodOut c = true
  spaced : noDblSp t = true
  hd : t.head? ≠ some 32
  lst : t.getLast? ≠ some 32

/-! ## Helper lemmas -/

theorem substrIn_nil (na : PyStr) (h : na ≠ []) : substrIn na [] = false := by
  cases na with
  | nil => exact absurd rfl h
  | cons c t => rfl

theorem filter_enumFrom_nil {α : Type} (p : α → Bool) (n : Nat) (L : List α)
    (h : ∀ x ∈ L, p x = false) :
    (List.enumFrom n L).filter (fun q => p q.2) = [] := by
  induction L generalizing n with
  | nil => rfl
  | cons a t ih =>
    have ha := h a (List.mem_cons_self a t)
    simp only [List.enumFrom_cons, List.filter_cons, ha]
    simpa using ih (n + 1) (fun x hx => h x (List.mem_cons_of_mem a hx))

theorem find_removals_eq_nil (U : Uni) (L A : List PyStr)
    (h : ∀ l ∈ L, lineMatches U (buildNormalizedArtists U A) l = false) :
    find_removals U L A = ([], []) := by
  have hf : L.enum.filter (fun p => lineMatches U (buildNormalizedArtists U A) p.2) = [] := by
    have := filter_enumFrom_nil (lineMatches U (buildNormalizedArtists U A)) 0 L h
    simpa [List.enum] using this
  simp [find_removals, hf]

theorem mem_buildNormalizedArtists (U : Uni) (A : List PyStr) (na : PyStr)
    (h : na ∈ buildNormalizedArtists U A) :
    na ≠ [] ∧ ∃ a ∈ A, na = normalizeWith U (pyStrip a) := by
  simp only [buildNormalizedArtists, List.mem_filterMap] at h
  obtain ⟨a, ha, hf⟩ := h
  split at hf
  · exact absurd hf (by simp)
  · split at hf
    · exact absurd hf (by simp)
    · rename_i h2
      rw [Option.some_inj] at hf
      exact ⟨hf ▸ h2, a, ha, hf.symm⟩

theorem mem_removals_iff_line (U : Uni) (flavors artists : List PyStr) (i : Nat)
    (line : PyStr) (hget : flavors[i]? = some line) :
    i ∈ (find_removals U flavors artists).1 ↔
      lineMatches U (buildNormalizedArtists U artists) line = true := by
  constructor
  · intro hi
    simp only [find_removals] at hi
    obtain ⟨q, hq, hfst⟩ := List.mem_map.1 hi
    obtain ⟨hqe, hql⟩ := List.mem_filter.1 hq
    have hq2 := List.mem_enum_iff_getElem?.1 hqe
    rw [hfst, hget] at hq2
    rw [Option.some_inj] at hq2
    rw [hq2]
    exact hql
  · intro hm
    simp only [find_removals]
    refine List.mem_map.2 ⟨(i, line), List.mem_filter.2 ⟨?_, hm⟩, rfl⟩
    exact List.mem_enum_iff_getElem?.2 hget

theorem kept_not_matched (U : Uni) (flavors artists : List PyStr) (l : PyStr)
    (hl : l ∈ keptLines flavors (find_removals U flavors artists).1) :
    lineMatches U (buildNormalizedArtists U artists) l = false := by
  simp only [keptLines] at hl
  obtain ⟨q, hq, hsnd⟩ := List.mem_map.1 hl
  obtain ⟨hqe, hkeep⟩ := List.mem_filter.1 hq
  have hni : q.1 ∉ (find_removals U flavors artists).1 := by
    simpa using hkeep
  have hget : flavors[q.1]? = some q.2 := List.mem_enum_iff_getElem?.1 hqe
  have := (mem_removals_iff_line U flavors artists q.1 q.2 hget).not.1 hni
  rw [← hsnd]
  exact Bool.not_eq_true _ ▸ Bool.of_not_eq_true this

/-! ## Claims -/

/-- Claim C1: `find_removals` flags a flavor line only if the string
`"and"` occurs somewhere in the line's normalized form (the code's
`'and' in nf` substring test); in particular a flavor line whose
normalized form lacks any occurrence of `"and"` is never flagged, even
when a qualifying artist token occurs in it as a substring. -/
theorem and_gate (U : Uni) (flavors artists : List PyStr) :
    (∀ i line, flavors[i]? = some line →
      i ∈ (find_removals U flavors artists).1 →
      substrIn (str "and") (normalizeWith U (pyStrip line)) = true) ∧
    (∀ i line, flavors[i]? = some line →
      substrIn (str "and") (normalizeWith U (pyStrip line)) = false →
      i ∉ (find_removals U flavors artists).1) := by
  have core : ∀ line, lineMatches U (buildNormalizedArtists U artists) line = true →
      substrIn (str "and") (normalizeWith U (pyStrip line)) = true := by
    intro line h
    simp only [lineMatches] at h
    split at h
    · exact absurd h (by simp)
    · rw [List.any_eq_true] at h
      obtain ⟨na, -, hna⟩ := h
      simp only [Bool.and_eq_true] at hna
      exact hna.2
  constructor
  · intro i line hget hi
    exact core line ((mem_removals_iff_line U flavors artists i line hget).1 hi)
  · intro i line hget hand hi
    have := core line ((mem_removals_iff_line U flavors artists i line hget).1 hi)
    rw [this] at hand
    exact absurd hand (by simp)

/-- Witness for C1 at Scenario A: line 0 is flagged and indeed its
normalized form contains `"and"`. -/
theorem and_gate_w :
    ([str "a painting in the style of Ai Weiwei and friends",
       str "a red apple"][0]? = some (str "a painting in the style of Ai Weiwei and friends")) ∧
    substrIn (str "and")
      (normalizeWith uniAscii (pyStrip (str "a painting in the style of Ai Weiwei and friends"))) = true :=
  ⟨by decide,
   (and_gate uniAscii
     [str "a painting in the style of Ai Weiwei and friends", str "a red apple"]
     [str "Ai Weiwei"]).1 0
     (str "a painting in the style of Ai Weiwei and friends") (by decide) (by decide)⟩

/-- Claim C4: with backup requested, `write_filtered` issues the backup
write strictly before the overwrite of the flavors file, and if the
backup write fails the run aborts with the flavors file (indeed the whole
state) untouched. -/
theorem backup_before_overwrite (L : List PyStr) (R : List Nat) (st : SysState) :
    write_filtered_writes L R true =
      [FileWrite.toBackup (serializeLines L),
       FileWrite.toPrimary (serializeLines (keptLines L R))] ∧
    runWritesF false st (write_filtered_writes L R true) = (st, false) :=
  ⟨rfl, rfl⟩

/-- Claim C5: applying `find_removals` to the lines kept by a first
application (with the same artists) finds nothing further to remove:
the filter reaches a fixed point after one application. -/
theorem removal_fixed_point (U : Uni) (flavors artists : List PyStr) :
    find_removals U (keptLines flavors (find_removals U flavors artists).1) artists =
      ([], []) :=
  find_removals_eq_nil U _ artists (fun l hl => kept_not_matched U flavors artists l hl)

/-- Claim C7: if every artist entry normalizes (with spaces removed) to at
most 3 characters, `find_removals` flags nothing, regardless of the
flavors lines. -/
theorem short_artists_never_flag (U : Uni) (flavors artists : List PyStr)
    (h : ∀ a ∈ artists,
      ((normalizeWith U (pyStrip a)).filter (fun c => !decide (c = 32))).length ≤ 3) :
    find_removals U flavors artists = ([], []) := by
  apply find_removals_eq_nil
  intro l _
  simp only [lineMatches]
  split
  · rfl
  · rw [List.any_eq_false]
    intro na hna
    obtain ⟨-, a, ha, rfl⟩ := mem_buildNormalizedArtists U artists na hna
    have hlen := h a ha
    simp only [Bool.and_eq_true, decide_eq_true_eq]
    rintro ⟨⟨⟨-, -⟩, h3⟩, -⟩
    omega

/-- Witness for C7 at Scenario B: artist `"Bob"` normalizes to 3
characters, so nothing is removed even though `"bob"` and `"and"` occur. -/
theorem short_artists_never_flag_w :
    (∀ a ∈ [str "Bob"],
      ((normalizeWith uniAscii (pyStrip a)).filter (fun c => !decide (c = 32))).length ≤ 3) ∧
    find_removals uniAscii [str "art by bob and co"] [str "Bob"] = ([], []) :=
  ⟨by decide,
   short_artists_never_flag uniAscii [str "art by bob and co"] [str "Bob"] (by decide)⟩

/-- Claim C8, Scenario A: with artists `["Ai Weiwei"]` the first flavor
line is flagged (index set `{0}`) and the applied output keeps exactly
`["a red apple"]`. -/
theorem scenario_A :
    find_removals uniAscii
      [str "a painting in the style of Ai Weiwei and friends", str "a red apple"]
      [str "Ai Weiwei"] =
      ([0], [str "a painting in the style of Ai Weiwei and friends"]) ∧
    keptLines
      [str "a painting in the style of Ai Weiwei and friends", str "a red apple"]
      [0] = [str "a red apple"] := by
  decide

/-- Claim C9: in dry-run mode (apply not requested) the program, given
both input files exist, changes nothing: the artists file, the flavors
file and the (absent) backup are exactly as before. -/
theorem dry_run_no_writes (U : Uni) (nb : Bool) (st : SysState) (a f : PyStr)
    (h1 : st.artistsFile = some a) (h2 : st.flavorsFile = some f) :
    mainRun U false nb st = Except.ok st := by
  simp only [mainRun, h1, h2]
  rfl

/-- Witness for C9 on a concrete filesystem state. -/
theorem dry_run_no_writes_w :
    ({ artistsFile := some (str "Ai Weiwei"), flavorsFile := some (str "a red apple"),
       backupFile := none } : SysState).artistsFile = some (str "Ai Weiwei") ∧
    mainRun uniAscii false false
      { artistsFile := some (str "Ai Weiwei"), flavorsFile := some (str "a red apple"),
        backupFile := none } =
      Except.ok
        { artistsFile := some (str "Ai Weiwei"), flavorsFile := some (str "a red apple"),
          backupFile := none } :=
  ⟨rfl, dry_run_no_writes uniAscii false _ (str "Ai Weiwei") (str "a red apple") rfl rfl⟩

/-- Claim C10: a non-blank flavor line whose normalized form is empty
(e.g. only punctuation) is never flagged, for every artists list, and it
is kept at its original index. -/
theorem empty_normal_kept (U : Uni) (flavors artists : List PyStr) (i : Nat)
    (line : PyStr) (hget : flavors[i]? = some line) (hne : pyStrip line ≠ [])
    (hnf : normalizeWith U (pyStrip line) = []) :
    i ∉ (find_removals U flavors artists).1 ∧
    (i, line) ∈ flavors.enum.filter
      (fun p => !decide (p.1 ∈ (find_removals U flavors artists).1)) := by
  have hm : lineMatches U (buildNormalizedArtists U artists) line = false := by
    simp only [lineMatches, if_neg hne, hnf]
    rw [List.any_eq_false]
    intro na hna
    obtain ⟨hne', -⟩ := mem_buildNormalizedArtists U artists na hna
    simp [Bool.and_eq_true, substrIn_nil na hne']
  have hni : i ∉ (find_removals U flavors artists).1 := by
    intro hi
    have := (mem_removals_iff_line U flavors artists i line hget).1 hi
    rw [hm] at this
    exact absurd this (by simp)
  refine ⟨hni, List.mem_filter.2 ⟨List.mem_enum_iff_getElem?.2 hget, by simpa using hni⟩⟩

/-- Witness for C10: the line `"!!!"` is non-blank, normalizes to the
empty string, and is not flagged. -/
theorem empty_normal_kept_w :
    (pyStrip (str "!!!") ≠ [] ∧ normalizeWith uniAscii (pyStrip (str "!!!")) = []) ∧
    0 ∉ (find_removals uniAscii [str "!!!", str "x and abcd"] [str "abcd"]).1 :=
  ⟨⟨by decide, by decide⟩,
   (empty_normal_kept uniAscii [str "!!!", str "x and abcd"] [str "abcd"] 0 (str "!!!")
     (by decide) (by decide) (by decide)).1⟩

/-! ## Serialization and line-splitting lemmas -/

theorem dropTrailing_of_none (p : Nat → Bool) (l : PyStr) (h : ∀ c ∈ l, p c = false) :
    dropTrailing p l = l := by
  induction l with
  | nil => rfl
  | cons c rest ih =>
    have hr : dropTrailing p rest = rest :=
      ih (fun x hx => h x (List.mem_cons_of_mem c hx))
    simp only [dropTrailing, hr]
    cases rest with
    | nil => simp [h c (List.mem_cons_self c [])]
    | cons d t => rfl

theorem rstripNl_of_noBreak (l : PyStr) (h : noBreakChars l) : rstripNl l = l := by
  apply dropTrailing_of_none
  intro c hc
  have hb := h c hc
  simp only [decide_eq_false_iff_not]
  intro hc10
  subst hc10
  exact absurd hb (by decide)

theorem splitlinesGo_nil (cur : PyStr) :
    splitlinesGo cur [] = if cur = [] then [] else [cur.reverse] := rfl

theorem splitlinesGo_cons_nobreak (cur : PyStr) (c : Nat) (rest : PyStr)
    (h : isLineBreak c = false) :
    splitlinesGo cur (c :: rest) = splitlinesGo (c :: cur) rest := by
  have h13 : ¬ c = 13 := by
    intro h13
    subst h13
    exact absurd h (by decide)
  cases rest with
  | nil =>
    show (if isLineBreak c = true then [cur.reverse] else [(c :: cur).reverse]) = _
    rw [if_neg (by simp [h]), splitlinesGo_nil, if_neg (by simp)]
  | cons c2 t =>
    show (if c = 13 then _ else if isLineBreak c = true then _ else
      splitlinesGo (c :: cur) (c2 :: t)) = _
    rw [if_neg h13, if_neg (by simp [h])]

theorem splitlinesGo_cons_nl (cur : PyStr) (rest : PyStr) :
    splitlinesGo cur (10 :: rest) = cur.reverse :: splitlinesGo [] rest := by
  cases rest with
  | nil =>
    show (if isLineBreak 10 = true then [cur.reverse] else _) = _
    rw [if_pos (by decide), splitlinesGo_nil, if_pos rfl]
  | cons c2 t =>
    show (if (10 : Nat) = 13 then _ else if isLineBreak 10 = true then
      cur.reverse :: splitlinesGo [] (c2 :: t) else _) = _
    rw [if_neg (by omega), if_pos (by decide)]

theorem splitlinesGo_break (a : PyStr) :
    ∀ (s cur : PyStr), noBreakChars a →
      splitlinesGo cur (a ++ 10 :: s) = (cur.reverse ++ a) :: splitlinesGo [] s := by
  induction a with
  | nil =>
    intro s cur _
    simpa using splitlinesGo_cons_nl cur s
  | cons c a' ih =>
    intro s cur ha
    have hc : isLineBreak c = false := ha c (List.mem_cons_self c a')
    show splitlinesGo cur (c :: (a' ++ 10 :: s)) = _
    rw [splitlinesGo_cons_nobreak cur c _ hc,
      ih s (c :: cur) (fun x hx => ha x (List.mem_cons_of_mem c hx))]
    simp

theorem splitlinesGo_all_nobreak (a : PyStr) :
    ∀ cur : PyStr, noBreakChars a → a ≠ [] →
      splitlinesGo cur a = [cur.reverse ++ a] := by
  induction a with
  | nil => intro cur _ h; exact absurd rfl h
  | cons c a' ih =>
    intro cur ha _
    rw [splitlinesGo_cons_nobreak cur c a' (ha c (List.mem_cons_self c a'))]
    cases a' with
    | nil => rw [splitlinesGo_nil]; simp
    | cons d t =>
      rw [ih (c :: cur) (fun x hx => ha x (List.mem_cons_of_mem c hx)) (by simp)]
      simp

theorem splitlinesGo_ne_nil :
    ∀ (n : Nat) (text cur : PyStr), text.length ≤ n → (text ≠ [] ∨ cur ≠ []) →
      splitlinesGo cur text ≠ [] := by
  intro n
  induction n with
  | zero =>
    intro text cur hlen hor
    have htext : text = [] := by
      cases text with
      | nil => rfl
      | cons c t => simp at hlen
    subst htext
    rcases hor with h | h
    · exact absurd rfl h
    · rw [splitlinesGo_nil, if_neg h]
      simp
  | succ n ih =>
    intro text cur hlen hor
    cases text with
    | nil =>
      rcases hor with h | h
      · exact absurd rfl h
      · rw [splitlinesGo_nil, if_neg h]
        simp
    | cons c rest =>
      cases rest with
      | nil =>
        show (if isLineBreak c = true then [cur.reverse] else [(c :: cur).reverse]) ≠ []
        split <;> simp
      | cons c2 t =>
        show (if c = 13 then
            if c2 = 10 then cur.reverse :: splitlinesGo [] t
            else cur.reverse :: splitlinesGo [] (c2 :: t)
          else if isLineBreak c = true then cur.reverse :: splitlinesGo [] (c2 :: t)
          else splitlinesGo (c :: cur) (c2 :: t)) ≠ []
        split
        · split <;> simp
        · split
          · simp
          · refine ih (c2 :: t) (c :: cur) ?_ (Or.inr (by simp))
            simp only [List.length_cons] at hlen ⊢
            omega

theorem serializeLines_cons (x : PyStr) (L : List PyStr) (h : L ≠ []) :
    serializeLines (x :: L) = x ++ 10 :: serializeLines L := by
  cases L with
  | nil => exact absurd rfl h
  | cons y t =>
    simp only [serializeLines, joinNl, List.getLast?_cons_cons]
    simp

theorem serializeLines_single (x : PyStr) (h : x.getLast? ≠ some 10) :
    serializeLines [x] = x ++ [10] := by
  simp only [serializeLines, joinNl, List.getLast?_singleton]
  cases hx : x.getLast? with
  | none => rfl
  | some c =>
    have hc : ¬ c = 10 := by
      intro h10
      subst h10
      exact absurd hx h
    simp [hc]

theorem load_serializeLines (L : List PyStr) (h : noBreakLines L) :
    load_nonempty_lines (serializeLines L) = L := by
  induction L with
  | nil => simp [load_nonempty_lines, pySplitlines, splitlinesGo_nil, serializeLines, joinNl]
  | cons x t ih =>
    have hx : noBreakChars x := h x (List.mem_cons_self x t)
    cases t with
    | nil =>
      have hlast : x.getLast? ≠ some 10 := by
        intro hl
        exact absurd (hx 10 (List.mem_of_getLast?_eq_some hl)) (by decide)
      rw [serializeLines_single x hlast]
      show (splitlinesGo [] (x ++ 10 :: [])).map rstripNl = [x]
      rw [splitlinesGo_break x [] [] hx, splitlinesGo_nil]
      simp [rstripNl_of_noBreak x hx]
    | cons y t' =>
      have ht : noBreakLines (y :: t') := fun l hl => h l (List.mem_cons_of_mem x hl)
      rw [serializeLines_cons x (y :: t') (by simp)]
      show (splitlinesGo [] (x ++ 10 :: serializeLines (y :: t'))).map rstripNl = x :: y :: t'
      rw [splitlinesGo_break x _ [] hx]
      simp only [List.map_cons, List.reverse_nil, List.nil_append,
        rstripNl_of_noBreak x hx]
      exact congrArg (x :: ·) (ih ht)

theorem keptLines_sublist (lines : List PyStr) (R : List Nat) :
    List.Sublist (keptLines lines R) lines := by
  have key : ∀ (p : Nat × PyStr → Bool) (n : Nat) (L : List PyStr),
      List.Sublist (((List.enumFrom n L).filter p).map Prod.snd) L := by
    intro p n L
    induction L generalizing n with
    | nil => simp
    | cons a t ih =>
      simp only [List.enumFrom_cons, List.filter_cons]
      by_cases hp : p (n, a) = true
      · simpa [hp] using List.Sublist.cons₂ a (ih (n + 1))
      · simpa [hp] using List.Sublist.cons a (ih (n + 1))
  simpa [keptLines, List.enum] using key _ 0 lines

/-- Claim C2: the rewritten flavors content is exactly the lines at
non-flagged indices: loading the serialized output back recovers the kept
lines unchanged (only trailing-newline presence is normalized by the
serializer), and the kept lines form a subsequence of the input, so
relative order and content of kept lines are preserved. -/
theorem write_keeps_exact (lines : List PyStr) (removalsIdx : List Nat)
    (h : noBreakLines lines) :
    load_nonempty_lines (serializeLines (keptLines lines removalsIdx)) =
      keptLines lines removalsIdx ∧
    List.Sublist (keptLines lines removalsIdx) lines := by
  have hk : noBreakLines (keptLines lines removalsIdx) := fun l hl =>
    h l ((keptLines_sublist lines removalsIdx).subset hl)
  exact ⟨load_serializeLines _ hk, keptLines_sublist lines removalsIdx⟩

/-- Witness for C2 on concrete lines with index 1 flagged. -/
theorem write_keeps_exact_w :
    noBreakLines [str "keep one", str "drop", str "keep two"] ∧
    load_nonempty_lines (serializeLines
        (keptLines [str "keep one", str "drop", str "keep two"] [1])) =
      keptLines [str "keep one", str "drop", str "keep two"] [1] :=
  ⟨by decide,
   (write_keeps_exact [str "keep one", str "drop", str "keep two"] [1] (by decide)).1⟩

/-! ## Backup-content lemmas (claim C3) -/

theorem runWrites_backup (st : SysState) (L : List PyStr) (R : List Nat) :
    (runWrites st (write_filtered_writes L R true)).backupFile =
      some (serializeLines L) := rfl

theorem first_nl_split (text : PyStr) (h : (10 : Nat) ∈ text) :
    ∃ a s, text = a ++ 10 :: s ∧ ∀ c ∈ a, c ≠ 10 := by
  induction text with
  | nil => simp at h
  | cons c t ih =>
    by_cases hc : c = 10
    · exact ⟨[], t, by rw [hc]; rfl, by simp⟩
    · have h10 : (10 : Nat) ∈ t := by
        rcases List.mem_cons.1 h with h' | h'
        · exact absurd h'.symm hc
        · exact h'
      obtain ⟨a, s, heq, ha⟩ := ih h10
      refine ⟨c :: a, s, by rw [heq]; rfl, ?_⟩
      intro d hd
      rcases List.mem_cons.1 hd with h' | h'
      · exact h' ▸ hc
      · exact ha d h'

theorem serialize_load :
    ∀ (n : Nat) (text : PyStr), text.length ≤ n → onlyNlBreaks text →
      serializeLines (load_nonempty_lines text) = ensureTrailNl text := by
  intro n
  induction n with
  | zero =>
    intro text hlen _
    have htext : text = [] := by
      cases text with
      | nil => rfl
      | cons c t => simp at hlen
    subst htext
    simp [load_nonempty_lines, pySplitlines, splitlinesGo_nil, serializeLines,
      joinNl, ensureTrailNl]
  | succ n ih =>
    intro text hlen honly
    by_cases h10 : (10 : Nat) ∈ text
    · obtain ⟨a, s, rfl, ha⟩ := first_nl_split text h10
      have hna : noBreakChars a := by
        intro c hc
        by_contra hb
        rw [Bool.not_eq_false] at hb
        exact absurd (honly c (by simp [hc]) hb) (ha c hc)
      have hload : load_nonempty_lines (a ++ 10 :: s) = a :: load_nonempty_lines s := by
        show (splitlinesGo [] (a ++ 10 :: s)).map rstripNl = _
        rw [splitlinesGo_break a s [] hna]
        simp [rstripNl_of_noBreak a hna]
        rfl
      rw [hload]
      by_cases hsnil : s = []
      · subst hsnil
        rw [show load_nonempty_lines [] = [] by
          simp [load_nonempty_lines, pySplitlines, splitlinesGo_nil]]
        rw [serializeLines_single a (fun hl =>
          absurd (hna 10 (List.mem_of_getLast?_eq_some hl)) (by decide))]
        show a ++ [10] = ensureTrailNl (a ++ [10])
        rw [ensureTrailNl, List.getLast?_concat]
        simp
      · have hsload : load_nonempty_lines s ≠ [] := by
          show (splitlinesGo [] s).map rstripNl ≠ []
          intro hmap
          exact splitlinesGo_ne_nil s.length s [] le_rfl (Or.inl hsnil)
            (List.map_eq_nil_iff.1 hmap)
        rw [serializeLines_cons a _ hsload]
        have hslen : s.length ≤ n := by
          simp at hlen
          omega
        rw [ih s hslen (fun c hc hb => honly c (by simp [hc]) hb)]
        have hgl : (a ++ 10 :: s).getLast? = s.getLast? := by
          rw [List.getLast?_append]
          cases s with
          | nil => exact absurd rfl hsnil
          | cons y t =>
            rw [List.getLast?_cons_cons]
            cases hgy : (y :: t).getLast? with
            | none => exact absurd (List.getLast?_eq_none_iff.1 hgy) (by simp)
            | some z => rfl
        rw [ensureTrailNl, ensureTrailNl, hgl]
        cases hgs : s.getLast? with
        | none => exact absurd (List.getLast?_eq_none_iff.1 hgs) hsnil
        | some c =>
          by_cases hc10 : c = 10
          · simp [hc10]
          · simp [hc10]
    · by_cases htnil : text = []
      · subst htnil
        simp [load_nonempty_lines, pySplitlines, splitlinesGo_nil, serializeLines,
          joinNl, ensureTrailNl]
      · have hnb : noBreakChars text := by
          intro c hc
          by_contra hb
          rw [Bool.not_eq_false] at hb
          exact h10 (honly c hc hb ▸ hc)
        have hload : load_nonempty_lines text = [text] := by
          show (splitlinesGo [] text).map rstripNl = [text]
          rw [splitlinesGo_all_nobreak text [] hnb htnil]
          simp [rstripNl_of_noBreak text hnb]
        rw [hload, serializeLines_single text (fun hl =>
          h10 (List.mem_of_getLast?_eq_some hl))]
        rw [ensureTrailNl]
        cases hgt : text.getLast? with
        | none => exact absurd (List.getLast?_eq_none_iff.1 hgt) htnil
        | some c =>
          have hc : ¬ c = 10 := fun h =>
            h10 (h ▸ List.mem_of_getLast?_eq_some hgt)
          simp [hc]

/-- Counterexample to claim C3 as stated: for pre-run flavors content
`"a"` (no trailing newline) the backup written by apply mode is `"a\n"`,
which is not byte-identical to the pre-run content. -/
theorem backup_not_byte_identical :
    getBackup (mainRun uniAscii true false
      { artistsFile := some [], flavorsFile := some (str "a"), backupFile := none }) =
      some (str "a\n") ∧ str "a\n" ≠ str "a" := by
  constructor
  · decide
  · decide

/-- Claim C3 (amended): in apply mode with backup enabled the backup file
content equals the pre-run flavors file content with a final `\n` appended
when missing, provided the pre-run content uses only `\n` line boundaries;
it is byte-identical exactly when that content is empty or already
`\n`-terminated. -/
theorem backup_matches_original (U : Uni) (st : SysState) (a text : PyStr)
    (h1 : st.artistsFile = some a) (h2 : st.flavorsFile = some text)
    (h3 : onlyNlBreaks text) :
    getBackup (mainRun U true false st) = some (ensureTrailNl text) := by
  simp only [mainRun, h1, h2, if_pos rfl, Bool.not_false]
  show getBackup (Except.ok _) = _
  simp only [getBackup, runWrites_backup]
  rw [serialize_load text.length text le_rfl h3]

/-- Witness for C3 (amended) on content `"a\nb"`: the backup is
`"a\nb\n"`, i.e. the original with the missing final newline added. -/
theorem backup_matches_original_w :
    onlyNlBreaks (str "a\nb") ∧
    getBackup (mainRun uniAscii true false
      { artistsFile := some [], flavorsFile := some (str "a\nb"), backupFile := none }) =
      some (ensureTrailNl (str "a\nb")) :=
  ⟨by decide,
   backup_matches_original uniAscii
     { artistsFile := some [], flavorsFile := some (str "a\nb"), backupFile := none }
     [] (str "a\nb") rfl rfl (by decide)⟩

/-! ## Character-class characterizations -/

theorem isPySpace_true_iff (n : Nat) : isPySpace n = true ↔
    (n = 32 ∨ n = 9 ∨ n = 10 ∨ n = 13 ∨ n = 11 ∨ n = 12 ∨ n = 28 ∨ n = 29 ∨
     n = 30 ∨ n = 31 ∨ n = 133 ∨ n = 160 ∨ n = 5760 ∨ (8192 ≤ n ∧ n ≤ 8202) ∨
     n = 8232 ∨ n = 8233 ∨ n = 8239 ∨ n = 8287 ∨ n = 12288) := by
  simp [isPySpace]
  omega

theorem goodOut_true_iff (n : Nat) : goodOut n = true ↔
    ((97 ≤ n ∧ n ≤ 122) ∨ (48 ≤ n ∧ n ≤ 57) ∨ n = 32) := by
  simp [goodOut, isAsciiLower, isAsciiDigit]
  omega

theorem isRegexStripped_false_iff (n : Nat) : isRegexStripped n = false ↔
    (isAsciiAlnum n = true ∨ isPySpace n = true) := by
  cases h1 : isAsciiAlnum n <;> cases h2 : isPySpace n <;>
    simp [isRegexStripped, h1, h2]

theorem isAsciiAlnum_true_iff (n : Nat) : isAsciiAlnum n = true ↔
    ((48 ≤ n ∧ n ≤ 57) ∨ (65 ≤ n ∧ n ≤ 90) ∨ (97 ≤ n ∧ n ≤ 122)) := by
  simp [isAsciiAlnum, isAsciiDigit, isAsciiUpper, isAsciiLower]
  omega

theorem goodOut_not_pyspace (c : Nat) (h : goodOut c = true) (h32 : c ≠ 32) :
    isPySpace c = false := by
  rw [goodOut_true_iff] at h
  rw [← Bool.not_eq_true, isPySpace_true_iff]
  omega

theorem goodOut_not_stripped (c : Nat) (h : goodOut c = true) :
    isRegexStripped c = false := by
  rw [goodOut_true_iff] at h
  rw [isRegexStripped_false_iff, isAsciiAlnum_true_iff, isPySpace_true_iff]
  omega

theorem asciiFold_goodOut (c : Nat) (h : isAsciiAlnum c = true ∨ c = 32) :
    goodOut (asciiFold c) = true := by
  rw [isAsciiAlnum_true_iff] at h
  rw [asciiFold]
  by_cases hu : isAsciiUpper c = true
  · rw [if_pos hu]
    rw [isAsciiUpper] at hu
    rw [goodOut_true_iff]
    simp at hu
    omega
  · rw [if_neg hu]
    rw [isAsciiUpper] at hu
    rw [goodOut_true_iff]
    simp at hu
    omega

theorem asciiFold_id_of_goodOut (c : Nat) (h : goodOut c = true) :
    asciiFold c = c := by
  rw [goodOut_true_iff] at h
  rw [asciiFold, if_neg ?_]
  rw [isAsciiUpper]
  simp
  omega

theorem asciiFold_eq_32 (c : Nat) (h : asciiFold c = 32) : c = 32 := by
  rw [asciiFold] at h
  by_cases hu : isAsciiUpper c = true
  · rw [if_pos hu] at h
    rw [isAsciiUpper] at hu
    simp at hu
    omega
  · rwa [if_neg hu] at h

/-! ## Run-replacement (regex substitution) lemmas -/

theorem mem_subRunsGo (p : Nat → Bool) :
    ∀ (b : Bool) (l : PyStr) (c : Nat),
      c ∈ subRunsGo p b l → c = 32 ∨ (c ∈ l ∧ p c = false) := by
  intro b l
  induction l generalizing b with
  | nil => intro c hc; simp [subRunsGo] at hc
  | cons d rest ih =>
    intro c hc
    simp only [subRunsGo] at hc
    by_cases hd : p d = true
    · rw [if_pos hd] at hc
      rcases List.mem_append.1 hc with h | h
      · left
        cases b with
        | true => simp at h
        | false => simpa using h
      · rcases ih true c h with h' | ⟨hm, hp⟩
        · exact Or.inl h'
        · exact Or.inr ⟨List.mem_cons_of_mem d hm, hp⟩
    · rw [if_neg hd] at hc
      rcases List.mem_cons.1 hc with h | h
      · subst h
        exact Or.inr ⟨List.mem_cons_self c rest, by simpa using hd⟩
      · rcases ih false c h with h' | ⟨hm, hp⟩
        · exact Or.inl h'
        · exact Or.inr ⟨List.mem_cons_of_mem d hm, hp⟩

theorem subRunsGo_id (p : Nat → Bool) :
    ∀ (b : Bool) (l : PyStr), (∀ c ∈ l, p c = false) → subRunsGo p b l = l := by
  intro b l
  induction l generalizing b with
  | nil => intro _; rfl
  | cons d rest ih =>
    intro h
    have hd := h d (List.mem_cons_self d rest)
    simp only [subRunsGo, hd]
    rw [if_neg (by simp [hd])]
    rw [ih false (fun c hc => h c (List.mem_cons_of_mem d hc))]

theorem subRunsGo_true_head (p : Nat → Bool) :
    ∀ (l : PyStr) (c : Nat), (subRunsGo p true l).head? = some c → p c = false := by
  intro l
  induction l with
  | nil => intro c hc; simp [subRunsGo] at hc
  | cons d rest ih =>
    intro c hc
    simp only [subRunsGo] at hc
    by_cases hd : p d = true
    · rw [if_pos hd] at hc
      exact ih c (by simpa using hc)
    · rw [if_neg hd] at hc
      simp only [List.head?_cons, Option.some_inj] at hc
      subst hc
      simpa using hd

theorem subRunsGo_true_of_head (p : Nat → Bool) (l : PyStr)
    (h : ∀ c, l.head? = some c → p c = false) :
    subRunsGo p true l = subRunsGo p false l := by
  cases l with
  | nil => rfl
  | cons a t =>
    have ha := h a rfl
    simp only [subRunsGo]
    rw [if_neg (by simp [ha]), if_neg (by simp [ha])]

/-! ## Canonical-spacing lemmas -/

theorem noDblSp_singleton (a : Nat) : noDblSp [a] = true := rfl

theorem noDblSp_tail (a : Nat) (l : PyStr) (h : noDblSp (a :: l) = true) :
    noDblSp l = true := by
  cases l with
  | nil => rfl
  | cons b t =>
    simp only [noDblSp, Bool.and_eq_true] at h
    exact h.2

theorem noDblSp_cons (a : Nat) (l : PyStr) (hl : noDblSp l = true)
    (h : a = 32 → l.head? ≠ some 32) : noDblSp (a :: l) = true := by
  cases l with
  | nil => rfl
  | cons b t =>
    simp only [noDblSp, hl, Bool.and_true]
    by_cases ha : a = 32
    · have hb : ¬ b = 32 := by
        intro hb
        exact (h ha) (by rw [hb]; rfl)
      simp [ha, hb]
    · simp [ha]

theorem noDblSp_head32 (a b : Nat) (t : PyStr) (h : noDblSp (a :: b :: t) = true)
    (ha : a = 32) : b ≠ 32 := by
  simp only [noDblSp, Bool.and_eq_true] at h
  intro hb
  have := h.1
  simp [ha, hb] at this

theorem subRunsGo_noDbl (p : Nat → Bool) (hp : p 32 = true) :
    ∀ (l : PyStr) (b : Bool), noDblSp (subRunsGo p b l) = true := by
  intro l
  induction l with
  | nil => intro b; rfl
  | cons d rest ih =>
    intro b
    simp only [subRunsGo]
    by_cases hd : p d = true
    · rw [if_pos hd]
      cases b with
      | true => simpa using ih true
      | false =>
        show noDblSp (32 :: subRunsGo p true rest) = true
        refine noDblSp_cons 32 _ (ih true) (fun _ hh => ?_)
        have := subRunsGo_true_head p rest 32 hh
        rw [hp] at this
        exact absurd this (by simp)
    · rw [if_neg hd]
      refine noDblSp_cons d _ (ih false) (fun hd32 => ?_)
      rw [hd32] at hd
      exact absurd hp hd

theorem noDblSp_append_left :
    ∀ (l t : PyStr), noDblSp (l ++ t) = true → noDblSp l = true := by
  intro l
  induction l with
  | nil => intro t _; rfl
  | cons a l' ih =>
    intro t h
    cases l' with
    | nil => rfl
    | cons b l'' =>
      simp only [List.cons_append, noDblSp, Bool.and_eq_true] at h ⊢
      exact ⟨h.1, by simpa [noDblSp] using ih t (by simpa [List.cons_append] using h.2)⟩

theorem noDblSp_dropWhile (p : Nat → Bool) :
    ∀ (l : PyStr), noDblSp l = true → noDblSp (l.dropWhile p) = true := by
  intro l
  induction l with
  | nil => intro _; exact rfl
  | cons a t ih =>
    intro h
    rw [List.dropWhile_cons]
    by_cases ha : p a = true
    · rw [if_pos ha]
      exact ih (noDblSp_tail a t h)
    · rwa [if_neg ha]

theorem dropTrailing_cons (p : Nat → Bool) (a : Nat) (rest : PyStr) :
    dropTrailing p (a :: rest) =
      match dropTrailing p rest with
      | [] => if p a then [] else [a]
      | r => a :: r := rfl

theorem dropTrailing_append (p : Nat → Bool) :
    ∀ l : PyStr, ∃ t, l = dropTrailing p l ++ t := by
  intro l
  induction l with
  | nil => exact ⟨[], rfl⟩
  | cons c rest ih =>
    obtain ⟨t, ht⟩ := ih
    cases hr : dropTrailing p rest with
    | nil =>
      simp only [dropTrailing, hr]
      by_cases hc : p c = true
      · rw [if_pos hc]
        exact ⟨c :: rest, rfl⟩
      · rw [if_neg hc]
        exact ⟨rest, rfl⟩
    | cons d r' =>
      simp only [dropTrailing, hr]
      refine ⟨t, ?_⟩
      rw [hr] at ht
      simp [← ht]

theorem noDblSp_dropTrailing (p : Nat → Bool) (l : PyStr) (h : noDblSp l = true) :
    noDblSp (dropTrailing p l) = true := by
  obtain ⟨t, ht⟩ := dropTrailing_append p l
  exact noDblSp_append_left _ t (ht ▸ h)

theorem dropTrailing_head (p : Nat → Bool) :
    ∀ (l : PyStr) (c : Nat), (dropTrailing p l).head? = some c → l.head? = some c := by
  intro l c hc
  cases l with
  | nil => simp [dropTrailing] at hc
  | cons a rest =>
    simp only [dropTrailing] at hc
    cases hr : dropTrailing p rest with
    | nil =>
      rw [hr] at hc
      by_cases ha : p a = true
      · rw [if_pos ha] at hc
        simp at hc
      · rw [if_neg ha] at hc
        simpa using hc
    | cons d r' =>
      rw [hr] at hc
      simpa using hc

theorem dropTrailing_last (p : Nat → Bool) :
    ∀ (l : PyStr) (c : Nat), (dropTrailing p l).getLast? = some c → p c = false := by
  intro l
  induction l with
  | nil => intro c hc; simp [dropTrailing] at hc
  | cons a rest ih =>
    intro c hc
    simp only [dropTrailing] at hc
    cases hr : dropTrailing p rest with
    | nil =>
      rw [hr] at hc
      by_cases ha : p a = true
      · rw [if_pos ha] at hc
        simp at hc
      · rw [if_neg ha] at hc
        simp only [List.getLast?_singleton, Option.some_inj] at hc
        subst hc
        simpa using ha
    | cons d r' =>
      rw [hr] at hc
      rw [List.getLast?_cons_cons] at hc
      exact ih c (hr ▸ hc)

theorem dropWhile_id_of_head (p : Nat → Bool) (l : PyStr)
    (h : ∀ c, l.head? = some c → p c = false) : l.dropWhile p = l := by
  cases l with
  | nil => rfl
  | cons a t =>
    rw [List.dropWhile_cons, if_neg (by simp [h a rfl])]

theorem dropTrailing_id_of_last (p : Nat → Bool) :
    ∀ l : PyStr, (∀ c, l.getLast? = some c → p c = false) → dropTrailing p l = l := by
  intro l
  induction l with
  | nil => intro _; rfl
  | cons a t ih =>
    intro h
    cases t with
    | nil =>
      simp only [dropTrailing]
      rw [if_neg (by simp [h a rfl])]
    | cons b t' =>
      have ht : dropTrailing p (b :: t') = b :: t' :=
        ih (fun c hc => h c (by rw [List.getLast?_cons_cons]; exact hc))
      rw [dropTrailing_cons, ht]

/-! ## Normalizer canonical form and idempotency (claim C6) -/

theorem mem_of_head?_eq (l : PyStr) (c : Nat) (h : l.head? = some c) : c ∈ l := by
  obtain ⟨ys, rfl⟩ := List.head?_eq_some_iff.1 h
  exact List.mem_cons_self c ys

theorem mem_pyStrip (l : PyStr) (c : Nat) (h : c ∈ pyStrip l) : c ∈ l := by
  have h1 : c ∈ l.dropWhile isPySpace := by
    obtain ⟨t, ht⟩ := dropTrailing_append isPySpace (l.dropWhile isPySpace)
    rw [ht]
    exact List.mem_append.2 (Or.inl h)
  exact (List.dropWhile_sublist isPySpace).subset h1

theorem flatten_map_singleton (f : Nat → PyStr) :
    ∀ l : PyStr, (∀ c ∈ l, f c = [c]) → (l.map f).flatten = l := by
  intro l
  induction l with
  | nil => intro _; rfl
  | cons a t ih =>
    intro h
    simp only [List.map_cons, List.flatten_cons, h a (List.mem_cons_self a t)]
    rw [ih (fun c hc => h c (List.mem_cons_of_mem a hc))]
    rfl

theorem map_id_of (f : Nat → Nat) :
    ∀ l : PyStr, (∀ c ∈ l, f c = c) → l.map f = l := by
  intro l
  induction l with
  | nil => intro _; rfl
  | cons a t ih =>
    intro h
    simp only [List.map_cons, h a (List.mem_cons_self a t)]
    rw [ih (fun c hc => h c (List.mem_cons_of_mem a hc))]

theorem noDblSp_map_fold :
    ∀ l : PyStr, noDblSp l = true → noDblSp (l.map asciiFold) = true := by
  intro l
  induction l with
  | nil => intro _; rfl
  | cons a t ih =>
    intro h
    cases t with
    | nil => rfl
    | cons b t' =>
      simp only [List.map_cons]
      simp only [noDblSp, Bool.and_eq_true] at h ⊢
      refine ⟨?_, by simpa [List.map_cons] using ih h.2⟩
      have h1 := h.1
      by_cases hfa : asciiFold a = 32
      · have ha := asciiFold_eq_32 a hfa
        by_cases hfb : asciiFold b = 32
        · have hb := asciiFold_eq_32 b hfb
          rw [ha, hb] at h1
          simp at h1
        · simp [hfa, hfb]
      · simp [hfa]

theorem collapse_id_canon :
    ∀ t : PyStr, (∀ c ∈ t, goodOut c = true) → noDblSp t = true →
      subRunsGo isPySpace false t = t := by
  intro t
  induction t with
  | nil => intro _ _; rfl
  | cons a rest ih =>
    intro hg hnd
    by_cases ha : a = 32
    · subst ha
      simp only [subRunsGo]
      rw [if_pos (by decide)]
      rw [subRunsGo_true_of_head isPySpace rest ?_]
      · rw [ih (fun c hc => hg c (List.mem_cons_of_mem _ hc)) (noDblSp_tail _ _ hnd)]
        rfl
      · intro c hcH
        cases rest with
        | nil => simp at hcH
        | cons b t' =>
          simp only [List.head?_cons, Option.some_inj] at hcH
          rw [← hcH]
          have hb32 := noDblSp_head32 32 b t' hnd rfl
          exact goodOut_not_pyspace b (hg b (by simp)) hb32
    · have hpa : isPySpace a = false :=
        goodOut_not_pyspace a (hg a (List.mem_cons_self a rest)) ha
      simp only [subRunsGo]
      rw [if_neg (by simp [hpa])]
      rw [ih (fun c hc => hg c (List.mem_cons_of_mem _ hc)) (noDblSp_tail _ _ hnd)]

theorem normalize_canon (U : Uni) (s : PyStr) : Canon (normalizeWith U s) := by
  set s2 := ((s.map U.nfkd).flatten).filter (fun c => !U.isMark c) with hs2
  have hres : normalizeWith U s =
      (pyStrip (collapseWs (subNonAlnum s2))).map asciiFold := rfl
  rw [hres]
  constructor
  · intro c hcm
    obtain ⟨d, hd, rfl⟩ := List.mem_map.1 hcm
    have hd2 : d ∈ collapseWs (subNonAlnum s2) := mem_pyStrip _ d hd
    rcases mem_subRunsGo isPySpace false (subNonAlnum s2) d hd2 with h32 | ⟨hd3, hps⟩
    · rw [h32]
      decide
    · rcases mem_subRunsGo isRegexStripped false s2 d hd3 with h32 | ⟨-, hrs⟩
      · rw [h32] at hps
        exact absurd hps (by decide)
      · rcases (isRegexStripped_false_iff d).1 hrs with halnum | hpys
        · exact asciiFold_goodOut d (Or.inl halnum)
        · rw [hpys] at hps
          exact absurd hps (by simp)
  · apply noDblSp_map_fold
    apply noDblSp_dropTrailing
    apply noDblSp_dropWhile
    exact subRunsGo_noDbl isPySpace (by decide) (subNonAlnum s2) false
  · intro hcontra
    rw [List.head?_map] at hcontra
    cases hh : (pyStrip (collapseWs (subNonAlnum s2))).head? with
    | none => rw [hh] at hcontra; simp at hcontra
    | some d =>
      rw [hh] at hcontra
      simp only [Option.map_some', Option.some_inj] at hcontra
      have hd32 := asciiFold_eq_32 d hcontra
      subst hd32
      rw [pyStrip] at hh
      have hh2 := dropTrailing_head isPySpace _ 32 hh
      have hnot := List.head?_dropWhile_not isPySpace (collapseWs (subNonAlnum s2))
      rw [hh2] at hnot
      exact absurd hnot (by decide)
  · intro hcontra
    rw [List.getLast?_map] at hcontra
    cases hh : (pyStrip (collapseWs (subNonAlnum s2))).getLast? with
    | none => rw [hh] at hcontra; simp at hcontra
    | some d =>
      rw [hh] at hcontra
      simp only [Option.map_some', Option.some_inj] at hcontra
      have hd32 := asciiFold_eq_32 d hcontra
      subst hd32
      rw [pyStrip] at hh
      have := dropTrailing_last isPySpace _ 32 hh
      exact absurd this (by decide)

theorem normalize_fixed_of_canon (U : Uni) (hU : UniAsciiFacts U) (t : PyStr)
    (hc : Canon t) : normalizeWith U t = t := by
  have h1 : (t.map U.nfkd).flatten = t :=
    flatten_map_singleton U.nfkd t (fun c hcm => hU.nfkd_fix c (hc.chars c hcm))
  have h2 : t.filter (fun c => !U.isMark c) = t :=
    List.filter_eq_self.2 (fun c hcm => by rw [hU.mark_free c (hc.chars c hcm)]; rfl)
  have h3 : subNonAlnum t = t :=
    subRunsGo_id isRegexStripped false t
      (fun c hcm => goodOut_not_stripped c (hc.chars c hcm))
  have h4 : collapseWs t = t := collapse_id_canon t hc.chars hc.spaced
  have h5 : pyStrip t = t := by
    have hh : ∀ c, t.head? = some c → isPySpace c = false := by
      intro c hcH
      have hcm := mem_of_head?_eq t c hcH
      have hc32 : c ≠ 32 := by
        intro h32
        exact hc.hd (h32 ▸ hcH)
      exact goodOut_not_pyspace c (hc.chars c hcm) hc32
    have hl : ∀ c, t.getLast? = some c → isPySpace c = false := by
      intro c hcL
      have hcm := List.mem_of_getLast?_eq_some hcL
      have hc32 : c ≠ 32 := by
        intro h32
        exact hc.lst (h32 ▸ hcL)
      exact goodOut_not_pyspace c (hc.chars c hcm) hc32
    rw [pyStrip, dropWhile_id_of_head isPySpace t hh,
      dropTrailing_id_of_last isPySpace t hl]
  have h6 : t.map asciiFold = t :=
    map_id_of asciiFold t (fun c hcm => asciiFold_id_of_goodOut c (hc.chars c hcm))
  show (pyStrip (collapseWs (subNonAlnum
    ((t.map U.nfkd).flatten.filter (fun c => !U.isMark c))))).map asciiFold = t
  rw [h1, h2, h3, h4, h5, h6]

/-- Claim C6: `normalize_text` is idempotent: for every string `s` (and
every Unicode model satisfying the documented facts on the normalizer's
ASCII output alphabet), normalizing a normalized string returns it
unchanged. -/
theorem normalize_idem (U : Uni) (hU : UniAsciiFacts U) (s : PyStr) :
    normalizeWith U (normalizeWith U s) = normalizeWith U s :=
  normalize_fixed_of_canon U hU (normalizeWith U s) (normalize_canon U s)

/-- Witness for C6 on a concrete string with uppercase, punctuation and
double spaces. -/
theorem normalize_idem_w :
    UniAsciiFacts uniAscii ∧
    normalizeWith uniAscii (normalizeWith uniAscii (str "  CAFE!!  and  More ")) =
      normalizeWith uniAscii (str "  CAFE!!  and  More ") :=
  ⟨⟨fun _ _ => rfl, fun _ _ => rfl⟩,
   normalize_idem uniAscii ⟨fun _ _ => rfl, fun _ _ => rfl⟩ (str "  CAFE!!  and  More ")⟩

end RemoveFlavors
